import Mathlib

/-
Verification development for the streaming UTF-8 validator
(src/src/text/utf8.rs).  The Rust code is embedded shallowly:
the DFA state enum, the validator record, and the methods
`process_byte`, `validate`, `validate_end` become Lean functions
with explicit state passing.  Bytes are modelled as `Nat`
(the Rust type `u8` guarantees values `< 256`; theorems that
depend on the bound carry it as a hypothesis).
-/

namespace Aretext.Utf8

/-- The DFA states, mirroring `enum State` in utf8.rs. -/
inductive State where
  | Valid
  | Invalid
  | AwaitingOneByte
  | AwaitingTwoBytesA
  | AwaitingTwoBytesB
  | AwaitingTwoBytesC
  | AwaitingThreeBytesA
  | AwaitingThreeBytesB
  | AwaitingThreeBytesC
deriving DecidableEq, Repr

/-- The validator record, mirroring `struct Utf8Validator`:
a processed-byte counter and the current DFA state. -/
structure Utf8Validator where
  processed_count : Nat
  state : State
deriving DecidableEq, Repr

/-- `Utf8Validator::new()`: counter 0, state `Valid`. -/
def Utf8Validator.new : Utf8Validator :=
  { processed_count := 0, state := State.Valid }

/-- The transition table of `process_byte`, the `match (self.state, b)`
expression in utf8.rs, one arm per (state, byte-range) pair; every
uncovered pair falls to `Invalid` exactly as the Rust `_` arm does. -/
def nextState (s : State) (b : Nat) : State :=
  match s with
  | State.Valid =>
    if b ≤ 0x7f then State.Valid
    else if 0xc2 ≤ b ∧ b ≤ 0xdf then State.AwaitingOneByte
    else if (0xe1 ≤ b ∧ b ≤ 0xec) ∨ (0xee ≤ b ∧ b ≤ 0xef) then State.AwaitingTwoBytesA
    else if b = 0xe0 then State.AwaitingTwoBytesB
    else if b = 0xed then State.AwaitingTwoBytesC
    else if b = 0xf0 then State.AwaitingThreeBytesA
    else if 0xf1 ≤ b ∧ b ≤ 0xf3 then State.AwaitingThreeBytesB
    else if b = 0xf4 then State.AwaitingThreeBytesC
    else State.Invalid
  | State.AwaitingOneByte =>
    if 0x80 ≤ b ∧ b ≤ 0xbf then State.Valid else State.Invalid
  | State.AwaitingTwoBytesA =>
    if 0x80 ≤ b ∧ b ≤ 0xbf then State.AwaitingOneByte else State.Invalid
  | State.AwaitingTwoBytesB =>
    if 0xa0 ≤ b ∧ b ≤ 0xbf then State.AwaitingOneByte else State.Invalid
  | State.AwaitingTwoBytesC =>
    if 0x80 ≤ b ∧ b ≤ 0x9f then State.AwaitingOneByte else State.Invalid
  | State.AwaitingThreeBytesA =>
    if 0x90 ≤ b ∧ b ≤ 0xbf then State.AwaitingTwoBytesA else State.Invalid
  | State.AwaitingThreeBytesB =>
    if 0x80 ≤ b ∧ b ≤ 0xbf then State.AwaitingTwoBytesA else State.Invalid
  | State.AwaitingThreeBytesC =>
    if 0x80 ≤ b ∧ b ≤ 0xbf then State.AwaitingTwoBytesA else State.Invalid
  | State.Invalid => State.Invalid

/-- `Utf8Validator::process_byte`: update the state, then fail with the
current counter value as offset when the new state is `Invalid`.
The error payload is the reported byte offset (`Option Nat`,
`none` = Ok). -/
def process_byte (v : Utf8Validator) (b : Nat) : Utf8Validator × Option Nat :=
  let s := nextState v.state b
  if s = State.Invalid then ({ v with state := s }, some v.processed_count)
  else ({ v with state := s }, none)

/-- The slow-path loop of `validate`: `process_byte(b)?` then
`processed_count += 1`; on error the loop stops with the counter
NOT incremented for the failing byte (the `?` returns early). -/
def validateLoop (v : Utf8Validator) : List Nat → Utf8Validator × Option Nat
  | [] => (v, none)
  | b :: rest =>
    let r := process_byte v b
    if r.snd.isSome then r
    else validateLoop { r.fst with processed_count := r.fst.processed_count + 1 } rest

/-- `Utf8Validator::is_ascii`: every byte has its high bit clear. -/
def is_ascii (bytes : List Nat) : Bool :=
  bytes.all fun b => b >>> 7 == 0

/-- `Utf8Validator::validate`: ASCII fast path when the state is `Valid`
and the whole chunk is ASCII (counter advanced by the chunk length),
otherwise the byte-by-byte slow path. -/
def validate (v : Utf8Validator) (bytes : List Nat) : Utf8Validator × Option Nat :=
  match v.state with
  | State.Valid =>
    if is_ascii bytes then
      ({ v with processed_count := v.processed_count + bytes.length }, none)
    else validateLoop v bytes
  | _ => validateLoop v bytes

/-- `Utf8Validator::validate_end`: takes `&self` (no mutation), succeeds
iff the state is `Valid`.  Modelled as state-passing that returns the
validator unchanged together with the success flag. -/
def validate_end (v : Utf8Validator) : Utf8Validator × Bool :=
  match v.state with
  | State.Valid => (v, true)
  | _ => (v, false)

/-- Pure DFA run: fold the transition table over a byte list. -/
def runBytes (s : State) (bytes : List Nat) : State :=
  bytes.foldl nextState s

/-- Index of the first byte whose transition enters `Invalid`
when running the DFA from `s`, if any. -/
def firstBad (s : State) : List Nat → Option Nat
  | [] => none
  | b :: rest =>
    if nextState s b = State.Invalid then some 0
    else (firstBad (nextState s b) rest).map (fun j => j + 1)

/-- Number of bytes the slow path processes successfully (all of them,
or the bytes strictly before the first failing one). -/
def countOk (s : State) (bytes : List Nat) : Nat :=
  match firstBad s bytes with
  | none => bytes.length
  | some j => j

/-- Feed every chunk in order (the caller keeps feeding after an error,
as the repository's own chunked property test does); the flag is true
iff every `validate` call returned Ok. -/
def feedAll (v : Utf8Validator) : List (List Nat) → Utf8Validator × Bool
  | [] => (v, true)
  | c :: cs =>
    let r := validate v c
    let rest := feedAll r.fst cs
    (rest.fst, r.snd.isNone && rest.snd)

/-- Feed chunks in order, stopping at the first `validate` error and
returning its reported offset. -/
def feedStop (v : Utf8Validator) : List (List Nat) → Utf8Validator × Option Nat
  | [] => (v, none)
  | c :: cs =>
    let r := validate v c
    if r.snd.isSome then r
    else feedStop r.fst cs

/-- Combined streaming outcome: feed all chunks, then `validate_end`;
true iff every call succeeded. -/
def streamOutcome (chunks : List (List Nat)) : Bool :=
  let r := feedAll Utf8Validator.new chunks
  r.snd && (validate_end r.fst).snd

/-- A continuation byte of the wire format: 0x80–0xBF. -/
def isCont (b : Nat) : Bool :=
  decide (0x80 ≤ b ∧ b ≤ 0xbf)

/-- Code point denoted by a two-byte sequence. -/
def cp2 (b0 b1 : Nat) : Nat :=
  (b0 - 0xc0) * 0x40 + (b1 - 0x80)

/-- Code point denoted by a three-byte sequence. -/
def cp3 (b0 b1 b2 : Nat) : Nat :=
  (b0 - 0xe0) * 0x1000 + (b1 - 0x80) * 0x40 + (b2 - 0x80)

/-- Code point denoted by a four-byte sequence. -/
def cp4 (b0 b1 b2 b3 : Nat) : Nat :=
  (b0 - 0xf0) * 0x40000 + (b1 - 0x80) * 0x1000 + (b2 - 0x80) * 0x40 + (b3 - 0x80)

/-- Reference whole-buffer UTF-8 validity (the standard-library oracle of
the spec): the buffer is a concatenation of minimal-length encodings of
Unicode scalar values — continuation bytes in 0x80–0xBF, no overlong
encodings, no surrogates (U+D800–U+DFFF), nothing above U+10FFFF.
This is the judgement `str::from_utf8` implements. -/
def utf8ValidBytes : List Nat → Bool
  | [] => true
  | b0 :: rest =>
    if b0 < 0x80 then utf8ValidBytes rest
    else if b0 < 0xc0 then false
    else if b0 < 0xe0 then
      match rest with
      | b1 :: tail =>
        isCont b1 && decide (0x80 ≤ cp2 b0 b1) && utf8ValidBytes tail
      | [] => false
    else if b0 < 0xf0 then
      match rest with
      | b1 :: b2 :: tail =>
        isCont b1 && isCont b2 && decide (0x800 ≤ cp3 b0 b1 b2) &&
        (decide (cp3 b0 b1 b2 < 0xd800) || decide (0xdfff < cp3 b0 b1 b2)) &&
        utf8ValidBytes tail
      | _ => false
    else if b0 < 0xf8 then
      match rest with
      | b1 :: b2 :: b3 :: tail =>
        isCont b1 && isCont b2 && isCont b3 &&
        decide (0x10000 ≤ cp4 b0 b1 b2 b3) && decide (cp4 b0 b1 b2 b3 ≤ 0x10ffff) &&
        utf8ValidBytes tail
      | _ => false
    else false

lemma nextState_invalid (b : Nat) : nextState State.Invalid b = State.Invalid := rfl

lemma runBytes_nil (s : State) : runBytes s [] = s := rfl

lemma runBytes_cons (s : State) (b : Nat) (bs : List Nat) :
    runBytes s (b :: bs) = runBytes (nextState s b) bs := rfl

lemma runBytes_invalid (bs : List Nat) : runBytes State.Invalid bs = State.Invalid := by
  induction bs with
  | nil => rfl
  | cons b rest ih => rw [runBytes_cons, nextState_invalid]; exact ih

lemma runBytes_append (s : State) (xs ys : List Nat) :
    runBytes s (xs ++ ys) = runBytes (runBytes s xs) ys := by
  simp [runBytes, List.foldl_append]

lemma nextState_ascii (b : Nat) (h : b ≤ 0x7f) : nextState State.Valid b = State.Valid := by
  simp [nextState, h]

lemma is_ascii_head (b : Nat) (bs : List Nat) (h : is_ascii (b :: bs) = true) :
    b ≤ 0x7f ∧ is_ascii bs = true := by
  simp only [is_ascii, List.all_cons, Bool.and_eq_true, beq_iff_eq] at h
  obtain ⟨hb, hrest⟩ := h
  rw [Nat.shiftRight_eq_div_pow] at hb
  exact ⟨by omega, hrest⟩

lemma ascii_run (bs : List Nat) (h : is_ascii bs = true) :
    runBytes State.Valid bs = State.Valid ∧ firstBad State.Valid bs = none := by
  induction bs with
  | nil => exact ⟨rfl, rfl⟩
  | cons b rest ih =>
    obtain ⟨hb, hrest⟩ := is_ascii_head b rest h
    obtain ⟨h1, h2⟩ := ih hrest
    refine ⟨?_, ?_⟩
    · rw [runBytes_cons, nextState_ascii b hb]; exact h1
    · simp [firstBad, nextState_ascii b hb, h2]

lemma validateLoop_spec (bs : List Nat) : ∀ (c : Nat) (s : State),
    validateLoop ⟨c, s⟩ bs =
      (⟨c + countOk s bs, runBytes s bs⟩, (firstBad s bs).map (fun j => c + j)) := by
  induction bs with
  | nil => intro c s; simp [validateLoop, countOk, firstBad, runBytes]
  | cons b rest ih =>
    intro c s
    by_cases hb : nextState s b = State.Invalid
    · simp [validateLoop, process_byte, hb, firstBad, countOk, runBytes_cons,
        runBytes_invalid]
    · simp only [validateLoop, process_byte, hb, if_neg, if_false, Option.isSome_none,
        Bool.false_eq_true, ite_false]
      rw [ih (c + 1) (nextState s b)]
      rw [runBytes_cons]
      cases hfb : firstBad (nextState s b) rest with
      | none =>
        simp [countOk, firstBad, hb, hfb, List.length_cons]
        omega
      | some j =>
        simp [countOk, firstBad, hb, hfb]
        omega

lemma validate_spec (c : Nat) (s : State) (bs : List Nat) :
    validate ⟨c, s⟩ bs =
      (⟨c + countOk s bs, runBytes s bs⟩, (firstBad s bs).map (fun j => c + j)) := by
  cases s with
  | Valid =>
    by_cases ha : is_ascii bs = true
    · obtain ⟨h1, h2⟩ := ascii_run bs ha
      simp [validate, ha, h1, h2, countOk]
    · simp only [validate, ha, if_false, Bool.false_eq_true, ite_false]
      exact validateLoop_spec bs c State.Valid
  | Invalid => exact validateLoop_spec bs c State.Invalid
  | AwaitingOneByte => exact validateLoop_spec bs c State.AwaitingOneByte
  | AwaitingTwoBytesA => exact validateLoop_spec bs c State.AwaitingTwoBytesA
  | AwaitingTwoBytesB => exact validateLoop_spec bs c State.AwaitingTwoBytesB
  | AwaitingTwoBytesC => exact validateLoop_spec bs c State.AwaitingTwoBytesC
  | AwaitingThreeBytesA => exact validateLoop_spec bs c State.AwaitingThreeBytesA
  | AwaitingThreeBytesB => exact validateLoop_spec bs c State.AwaitingThreeBytesB
  | AwaitingThreeBytesC => exact validateLoop_spec bs c State.AwaitingThreeBytesC

lemma firstBad_cons (s : State) (b : Nat) (bs : List Nat) :
    firstBad s (b :: bs) =
      if nextState s b = State.Invalid then some 0
      else (firstBad (nextState s b) bs).map (fun j => j + 1) := rfl

lemma firstBad_some_runBytes (bs : List Nat) : ∀ (s : State) (j : Nat),
    firstBad s bs = some j → runBytes s bs = State.Invalid := by
  induction bs with
  | nil => intro s j h; simp [firstBad] at h
  | cons b rest ih =>
    intro s j h
    rw [runBytes_cons]
    by_cases hb : nextState s b = State.Invalid
    · rw [hb]; exact runBytes_invalid rest
    · cases hfb : firstBad (nextState s b) rest with
      | some j' => exact ih (nextState s b) j' hfb
      | none =>
        rw [firstBad_cons, if_neg hb, hfb] at h
        simp at h

lemma firstBad_none_of_run (bs : List Nat) (s : State)
    (h : runBytes s bs ≠ State.Invalid) : firstBad s bs = none := by
  cases hfb : firstBad s bs with
  | none => rfl
  | some j => exact absurd (firstBad_some_runBytes bs s j hfb) h

lemma firstBad_append (xs : List Nat) : ∀ (s : State) (ys : List Nat),
    firstBad s (xs ++ ys) =
      match firstBad s xs with
      | some j => some j
      | none => (firstBad (runBytes s xs) ys).map (fun j => xs.length + j) := by
  induction xs with
  | nil => intro s ys; simp [firstBad, runBytes]
  | cons x rest ih =>
    intro s ys
    rw [List.cons_append, firstBad_cons, firstBad_cons, runBytes_cons]
    by_cases hb : nextState s x = State.Invalid
    · simp [hb]
    · rw [if_neg hb, if_neg hb, ih (nextState s x) ys]
      cases hfb : firstBad (nextState s x) rest with
      | none =>
        simp only [hfb, Option.map_none', Option.map_map]
        cases hfy : firstBad (runBytes (nextState s x) rest) ys with
        | none => simp
        | some j =>
          simp only [hfy, Option.map_some', Function.comp_apply, List.length_cons]
          congr 1
          omega
      | some j => simp [hfb]

lemma feedStop_snd (cs : List (List Nat)) : ∀ (c : Nat) (s : State),
    (feedStop ⟨c, s⟩ cs).snd = (firstBad s cs.flatten).map (fun j => c + j) := by
  induction cs with
  | nil => intro c s; simp [feedStop, List.flatten, firstBad]
  | cons ch cs' ih =>
    intro c s
    simp only [feedStop, validate_spec]
    cases hfb : firstBad s ch with
    | some j =>
      simp only [hfb, Option.map_some', Option.isSome_some, if_true, ite_true]
      rw [List.flatten_cons, firstBad_append ch s cs'.flatten, hfb]
      rfl
    | none =>
      simp only [hfb, Option.map_none', Option.isSome_none, Bool.false_eq_true,
        if_false, ite_false, countOk]
      rw [ih (c + ch.length) (runBytes s ch)]
      rw [List.flatten_cons, firstBad_append ch s cs'.flatten, hfb]
      cases hfy : firstBad (runBytes s ch) cs'.flatten with
      | none => simp
      | some j =>
        simp only [hfy, Option.map_some']
        congr 1
        omega

lemma feedStop_err_count (cs : List (List Nat)) : ∀ (v : Utf8Validator) (k : Nat),
    (feedStop v cs).snd = some k → (feedStop v cs).fst.processed_count = k := by
  induction cs with
  | nil => intro v k h; simp [feedStop] at h
  | cons ch cs' ih =>
    intro v k h
    obtain ⟨c, s⟩ := v
    simp only [feedStop, validate_spec] at h ⊢
    cases hfb : firstBad s ch with
    | some j =>
      simp only [hfb, Option.map_some', Option.isSome_some, if_true, ite_true,
        Option.some.injEq] at h ⊢
      simp only [countOk, hfb]
      omega
    | none =>
      simp only [hfb, Option.map_none', Option.isSome_none, Bool.false_eq_true,
        if_false, ite_false] at h ⊢
      exact ih _ k h

lemma feedAll_state (cs : List (List Nat)) : ∀ (c : Nat) (s : State),
    (feedAll ⟨c, s⟩ cs).fst.state = runBytes s cs.flatten := by
  induction cs with
  | nil => intro c s; simp [feedAll, List.flatten, runBytes]
  | cons ch cs' ih =>
    intro c s
    simp only [feedAll, validate_spec]
    rw [ih (c + countOk s ch) (runBytes s ch), List.flatten_cons, runBytes_append]

lemma feedAll_ok_iff (cs : List (List Nat)) : ∀ (c : Nat) (s : State),
    ((feedAll ⟨c, s⟩ cs).snd = true ∧ (feedAll ⟨c, s⟩ cs).fst.state = State.Valid) ↔
      runBytes s cs.flatten = State.Valid := by
  induction cs with
  | nil => intro c s; simp [feedAll, List.flatten, runBytes]
  | cons ch cs' ih =>
    intro c s
    simp only [feedAll, validate_spec]
    cases hfb : firstBad s ch with
    | some j =>
      simp only [hfb, Option.map_some', Option.isNone_some, Bool.false_and,
        Bool.false_eq_true, false_and, false_iff]
      intro hrun
      rw [List.flatten_cons, runBytes_append, firstBad_some_runBytes ch s j hfb,
        runBytes_invalid] at hrun
      exact State.noConfusion hrun
    | none =>
      simp only [hfb, Option.map_none', Option.isNone_none, Bool.true_and]
      rw [List.flatten_cons, runBytes_append]
      exact ih (c + countOk s ch) (runBytes s ch)

lemma new_def : Utf8Validator.new = ⟨0, State.Valid⟩ := rfl

lemma validate_nil (v : Utf8Validator) : validate v [] = (v, none) := by
  obtain ⟨c, s⟩ := v
  cases s <;> rfl

lemma validate_end_fst (v : Utf8Validator) : (validate_end v).fst = v := by
  obtain ⟨c, s⟩ := v
  cases s <;> rfl

lemma validate_end_true_iff (v : Utf8Validator) :
    (validate_end v).snd = true ↔ v.state = State.Valid := by
  obtain ⟨c, s⟩ := v
  cases s <;> simp [validate_end]

lemma firstBad_take (bs : List Nat) : ∀ (s : State) (j : Nat),
    firstBad s bs = some j →
      j < bs.length ∧ firstBad s (bs.take j) = none ∧
      runBytes s (bs.take (j + 1)) = State.Invalid := by
  induction bs with
  | nil => intro s j h; simp [firstBad] at h
  | cons b rest ih =>
    intro s j h
    by_cases hb : nextState s b = State.Invalid
    · rw [firstBad_cons, if_pos hb, Option.some.injEq] at h
      subst h
      refine ⟨Nat.succ_pos _, rfl, ?_⟩
      rw [List.take_succ_cons, List.take_zero, runBytes_cons, hb, runBytes_nil]
    · rw [firstBad_cons, if_neg hb] at h
      cases hfb : firstBad (nextState s b) rest with
      | none => rw [hfb] at h; simp at h
      | some j' =>
        rw [hfb, Option.map_some', Option.some.injEq] at h
        subst h
        obtain ⟨h1, h2, h3⟩ := ih (nextState s b) j' hfb
        refine ⟨by simpa using Nat.succ_lt_succ h1, ?_, ?_⟩
        · rw [List.take_succ_cons, firstBad_cons, if_neg hb, h2, Option.map_none']
        · rw [List.take_succ_cons, runBytes_cons]
          exact h3

lemma streamOutcome_iff (cs : List (List Nat)) :
    streamOutcome cs = true ↔ runBytes State.Valid cs.flatten = State.Valid := by
  unfold streamOutcome
  rw [Bool.and_eq_true, validate_end_true_iff, new_def]
  exact feedAll_ok_iff cs 0 State.Valid

/-- C1: the claim asserts the validator agrees with whole-buffer UTF-8
validity on every byte sequence.  The code violates this on
`F4 90 80 80`, which encodes the out-of-range value U+110000: the
validator accepts it (the DFA admits first continuation bytes up to
0xBF after the lead byte 0xF4), while the reference oracle — and the
repository's own property test against `str::from_utf8` — rejects it.
This theorem evaluates both sides at the failing input. -/
theorem c1_code_oracle_divergence :
    (validate Utf8Validator.new [0xf4, 0x90, 0x80, 0x80]).snd = none ∧
    (validate_end (validate Utf8Validator.new [0xf4, 0x90, 0x80, 0x80]).fst).snd = true ∧
    utf8ValidBytes [0xf4, 0x90, 0x80, 0x80] = false := by
  decide

/-- C2 counterexample: the claim states that after the lead byte 0xF4 the
first continuation byte is accepted only in 0x80–0x9F.  The byte 0xA0
lies outside that range, yet the transition function accepts it. -/
theorem c2_counterexample :
    nextState State.Valid 0xf4 = State.AwaitingThreeBytesC ∧
    nextState State.AwaitingThreeBytesC 0xa0 ≠ State.Invalid ∧
    ¬(0x80 ≤ 0xa0 ∧ (0xa0 : Nat) ≤ 0x9f) := by
  decide

/-- C2 amended: from `Valid`, the lead byte 0xF4 moves the validator to
`AwaitingThreeBytesC` (awaiting 3 continuation bytes), where the first
continuation byte is accepted if and only if it lies in 0x80–0xBF; any
byte outside that range sends the state to `Invalid`. -/
theorem c2_amended (b : Nat) :
    nextState State.Valid 0xf4 = State.AwaitingThreeBytesC ∧
    (nextState State.AwaitingThreeBytesC b ≠ State.Invalid ↔ (0x80 ≤ b ∧ b ≤ 0xbf)) := by
  refine ⟨rfl, ?_⟩
  simp only [nextState]
  by_cases h : 0x80 ≤ b ∧ b ≤ 0xbf
  · simp [h]
  · simp [h]

/-- C3: feeding any partition of a stream chunk by chunk and then checking
the end state gives the same overall success/failure outcome as feeding
the whole stream in one `validate` call. -/
theorem c3_chunk_invariance (chunks : List (List Nat)) :
    streamOutcome chunks = streamOutcome [chunks.flatten] := by
  have hA := streamOutcome_iff chunks
  have hB := streamOutcome_iff [chunks.flatten]
  rw [List.flatten_cons, List.flatten_nil, List.append_nil] at hB
  cases hc : streamOutcome chunks <;> cases hd : streamOutcome [chunks.flatten] <;>
    simp_all

/-- C4 counterexample: the claim says the processed-byte counter is
incremented for the failing byte as well, so a failure at stream index 0
would leave the counter at 1.  In the code `process_byte(b)?` returns
before `processed_count += 1`, so the counter stays 0. -/
theorem c4_counterexample :
    (validate Utf8Validator.new [0xff]).snd = some 0 ∧
    (validate Utf8Validator.new [0xff]).fst.processed_count ≠ 0 + 1 := by
  decide

/-- C4 amended: the counter is incremented by 1 per successfully processed
byte, but NOT for the byte that causes failure: after the `validate` call
that fails on the byte at zero-based stream index k, the counter equals k
(which also equals the reported offset). -/
theorem c4_amended (cs : List (List Nat)) (k : Nat)
    (h : (feedStop Utf8Validator.new cs).snd = some k) :
    (feedStop Utf8Validator.new cs).fst.processed_count = k ∧
    firstBad State.Valid cs.flatten = some k := by
  refine ⟨feedStop_err_count cs Utf8Validator.new k h, ?_⟩
  have h2 := feedStop_snd cs 0 State.Valid
  rw [← new_def, h] at h2
  cases hfb : firstBad State.Valid cs.flatten with
  | none => rw [hfb, Option.map_none'] at h2; exact absurd h2.symm (by simp)
  | some j =>
    rw [hfb, Option.map_some'] at h2
    simp only [Option.some.injEq] at h2 ⊢
    omega

theorem c4_amended_witness :
    (feedStop Utf8Validator.new [[0xff]]).snd = some 0 ∧
    ((feedStop Utf8Validator.new [[0xff]]).fst.processed_count = 0 ∧
      firstBad State.Valid ([[0xff]] : List (List Nat)).flatten = some 0) :=
  ⟨by decide, c4_amended [[0xff]] 0 (by decide)⟩

/-- C5: whenever a `validate` call fails with an invalid-byte error, the
offset it reports is the zero-based index, within the whole stream fed so
far (all chunks concatenated), of the byte that caused the failure: the
DFA run survives the first k bytes and enters `Invalid` on byte k. -/
theorem c5_offset_exact (cs : List (List Nat)) (k : Nat)
    (h : (feedStop Utf8Validator.new cs).snd = some k) :
    k < cs.flatten.length ∧
    firstBad State.Valid (cs.flatten.take k) = none ∧
    runBytes State.Valid (cs.flatten.take (k + 1)) = State.Invalid := by
  have h2 := feedStop_snd cs 0 State.Valid
  rw [← new_def, h] at h2
  cases hfb : firstBad State.Valid cs.flatten with
  | none => rw [hfb, Option.map_none'] at h2; exact absurd h2.symm (by simp)
  | some j =>
    rw [hfb, Option.map_some'] at h2
    simp only [Option.some.injEq] at h2
    have hj : j = k := by omega
    subst hj
    exact firstBad_take cs.flatten State.Valid j hfb

theorem c5_offset_exact_witness :
    (feedStop Utf8Validator.new [[0x41], [0xe0, 0x80]]).snd = some 2 ∧
    (2 < ([[0x41], [0xe0, 0x80]] : List (List Nat)).flatten.length ∧
      firstBad State.Valid (([[0x41], [0xe0, 0x80]] : List (List Nat)).flatten.take 2) = none ∧
      runBytes State.Valid (([[0x41], [0xe0, 0x80]] : List (List Nat)).flatten.take 3) = State.Invalid) :=
  ⟨by decide, c5_offset_exact [[0x41], [0xe0, 0x80]] 2 (by decide)⟩

/-- C6: `validate_end` succeeds iff the current state is `Valid`; it takes
the validator by immutable reference, so it returns the validator (state
and counter) unchanged and repeated calls give the same result. -/
theorem c6_validate_end_pure (v : Utf8Validator) :
    (validate_end v).fst = v ∧
    ((validate_end v).snd = true ↔ v.state = State.Valid) ∧
    (validate_end ((validate_end v).fst)).snd = (validate_end v).snd := by
  obtain ⟨c, s⟩ := v
  cases s <;> simp [validate_end]

/-- C7: `Invalid` is absorbing: every byte maps it to itself, so once a
validator is in `Invalid`, every `validate` call on a non-empty chunk
fails, leaves the state `Invalid`, and `validate_end` fails. -/
theorem c7_invalid_absorbing (b : Nat) (v : Utf8Validator) (bs : List Nat)
    (hv : v.state = State.Invalid) (hbs : bs ≠ []) :
    nextState State.Invalid b = State.Invalid ∧
    (validate v bs).snd.isSome = true ∧
    (validate v bs).fst.state = State.Invalid ∧
    (validate_end v).snd = false := by
  obtain ⟨c, s⟩ := v
  simp only [Utf8Validator.state] at hv
  subst hv
  refine ⟨rfl, ?_, ?_, rfl⟩
  · cases bs with
    | nil => exact absurd rfl hbs
    | cons b0 rest =>
      rw [validate_spec]
      simp [firstBad_cons, nextState_invalid]
  · rw [validate_spec]
    simp [runBytes_invalid]

theorem c7_invalid_absorbing_witness :
    (Utf8Validator.mk 0 State.Invalid).state = State.Invalid ∧ ([0] : List Nat) ≠ [] ∧
    (nextState State.Invalid 0 = State.Invalid ∧
      (validate ⟨0, State.Invalid⟩ [0]).snd.isSome = true ∧
      (validate ⟨0, State.Invalid⟩ [0]).fst.state = State.Invalid ∧
      (validate_end (⟨0, State.Invalid⟩ : Utf8Validator)).snd = false) :=
  ⟨rfl, by decide, c7_invalid_absorbing 0 ⟨0, State.Invalid⟩ [0] rfl (by decide)⟩

/-- C8: on an all-ASCII chunk fed in state `Valid`, the ASCII fast path of
`validate` produces exactly the same result, final state and final
counter as running the chunk byte by byte through the DFA slow path. -/
theorem c8_fast_path_equiv (c : Nat) (bs : List Nat) (h : is_ascii bs = true) :
    validate ⟨c, State.Valid⟩ bs = validateLoop ⟨c, State.Valid⟩ bs := by
  rw [validate_spec, validateLoop_spec]

theorem c8_fast_path_equiv_witness :
    is_ascii [0x61, 0x62, 0x63] = true ∧
    validate ⟨5, State.Valid⟩ [0x61, 0x62, 0x63] =
      validateLoop ⟨5, State.Valid⟩ [0x61, 0x62, 0x63] :=
  ⟨by decide, c8_fast_path_equiv 5 [0x61, 0x62, 0x63] (by decide)⟩

/-- C9: a fresh validator fed any number of empty chunks is unchanged
(state `Valid`, counter 0), each empty-chunk call succeeds, and
`validate_end` succeeds. -/
theorem c9_empty_input (n : Nat) :
    feedAll Utf8Validator.new (List.replicate n []) = (Utf8Validator.new, true) ∧
    validate Utf8Validator.new [] = (Utf8Validator.new, none) ∧
    (validate_end Utf8Validator.new).snd = true := by
  refine ⟨?_, validate_nil Utf8Validator.new, rfl⟩
  induction n with
  | zero => rfl
  | succ m ih =>
    rw [List.replicate_succ]
    simp only [feedAll, validate_nil, Option.isNone_none, Bool.true_and]
    rw [ih]

/-- C10: `validate` on an empty chunk returns success in every state,
including `Invalid`, leaving the validator unchanged; an error is
returned only when the chunk drives (or finds) the state `Invalid`. -/
theorem c10_empty_chunk_ok (v : Utf8Validator) (bs : List Nat) :
    validate v [] = (v, none) ∧
    ((validate v bs).snd = none ∨ (validate v bs).fst.state = State.Invalid) := by
  obtain ⟨c, s⟩ := v
  refine ⟨validate_nil _, ?_⟩
  rw [validate_spec]
  cases hfb : firstBad s bs with
  | none => left; simp
  | some j =>
    right
    simpa using firstBad_some_runBytes bs s j hfb

end Aretext.Utf8
